import Mathlib

/-!
# chirpy: a shallow embedding of `main.go`

The program is a small HTTP service.  The parts embedded here are

* the hit counter `apiConfig.fileServerHits` (an `atomic.Int32`) with the three
  operations that touch it (`middlewareMetricsInc`, `handlerMetrics`,
  `handlerResetMetrics`);
* `filterProfanity`, together with the Go standard-library functions it calls
  (`strings.Split`, `strings.Join`, `strings.ToLower`);
* the handler of `POST /api/validate_chirp`, together with `respondWithError` and
  `respondWithJSON`.

A Go `string` is a sequence of bytes, so it is a `List Nat` here (every byte is a
natural number below 256; the theorems below hold for every list).  `len(s)` is
`List.length`, and the number of characters of a string is `RuneCountInString`.

The case tables of the Unicode database, which `unicode.ToLower` consults for a rune
outside ASCII, are not part of the program: they are the parameter `caseTable` of
every definition that reaches them, and every theorem holds for every table.
-/

namespace Chirpy

/-- A Go string: its bytes, in order. -/
abbrev GoString := List Nat

/-- The bytes of an ASCII string literal of the source. -/
def ascii (s : String) : GoString := s.toList.map Char.toNat

/-! ## `unicode/utf8` -/

/-- Constant `utf8.RuneError` (U+FFFD). -/
def RuneError : Int := 0xFFFD

/-- Constant `utf8.MaxRune` (U+10FFFF). -/
def MaxRune : Int := 0x10FFFF

/-- Table `utf8.first`: information about the first byte of a UTF-8 sequence.
`0xF0` is `as` (ASCII, size 1), `0xF1` is `xx` (invalid, size 1); for the other
entries the low three bits are the size and the high four bits index
`acceptRanges`. -/
def first (b : Nat) : Nat :=
  if b < 0x80 then 0xF0        -- as
  else if b < 0xC2 then 0xF1   -- xx
  else if b < 0xE0 then 0x02   -- s1
  else if b = 0xE0 then 0x13   -- s2
  else if b < 0xED then 0x03   -- s3
  else if b = 0xED then 0x23   -- s4
  else if b < 0xF0 then 0x03   -- s3
  else if b = 0xF0 then 0x34   -- s5
  else if b < 0xF4 then 0x04   -- s6
  else if b = 0xF4 then 0x44   -- s7
  else 0xF1                    -- xx

/-- Table `utf8.acceptRanges`: the lowest and highest value allowed for the second
byte of a sequence. -/
def acceptRanges (k : Nat) : Nat × Nat :=
  match k with
  | 0 => (0x80, 0xBF)
  | 1 => (0xA0, 0xBF)
  | 2 => (0x80, 0x9F)
  | 3 => (0x90, 0xBF)
  | 4 => (0x80, 0x8F)
  | _ => (0, 0)

/-- Function `utf8.DecodeRuneInString`: the first rune of `s` and its width in bytes.
The masks and shifts of the source are written arithmetically: `b & mask2` is
`b % 32`, `b & mask3` is `b % 16`, `b & mask4` is `b % 8`, `b & maskx` is `b % 64`,
`x << 6` is `x * 64`, and `|` of values with disjoint bits is `+`. -/
def DecodeRuneInString (s : GoString) : Int × Nat :=
  match s with
  | [] => (RuneError, 0)
  | s0 :: t =>
    let x := first s0
    if x ≥ 0xF0 then
      (if x = 0xF0 then (s0 : Int) else RuneError, 1)
    else
      let sz := x % 8
      let accept := acceptRanges (x / 16)
      if s.length < sz then (RuneError, 1)
      else
        match t with
        | [] => (RuneError, 1)
        | s1 :: t1 =>
          if s1 < accept.1 ∨ accept.2 < s1 then (RuneError, 1)
          else if sz ≤ 2 then (((s0 % 32) * 64 + s1 % 64 : Nat), 2)
          else
            match t1 with
            | [] => (RuneError, 1)
            | s2 :: t2 =>
              if s2 < 0x80 ∨ 0xBF < s2 then (RuneError, 1)
              else if sz ≤ 3 then
                (((s0 % 16) * 4096 + (s1 % 64) * 64 + s2 % 64 : Nat), 3)
              else
                match t2 with
                | [] => (RuneError, 1)
                | s3 :: _ =>
                  if s3 < 0x80 ∨ 0xBF < s3 then (RuneError, 1)
                  else
                    (((s0 % 8) * 262144 + (s1 % 64) * 4096 + (s2 % 64) * 64 + s3 % 64 : Nat), 4)

/-- Function `utf8.RuneLen`: the number of bytes of the encoding of `r`, or `-1`
when `r` is not a valid rune. -/
def RuneLen (r : Int) : Int :=
  if r < 0 then -1
  else if r ≤ 0x7F then 1
  else if r ≤ 0x7FF then 2
  else if 0xD800 ≤ r ∧ r ≤ 0xDFFF then -1
  else if r ≤ 0xFFFF then 3
  else if r ≤ MaxRune then 4
  else -1

/-- Function `utf8.AppendRune` on an empty buffer: the UTF-8 encoding of `r`.  The
rune is first converted to `uint32`; a value that is not a valid rune is encoded as
`RuneError`.  `t2 | byte(r>>6)` is `0xC0 + r / 64`, and so on. -/
def AppendRune (r : Int) : GoString :=
  let i := (r % 4294967296).toNat
  if i ≤ 0x7F then [i]
  else if i ≤ 0x7FF then [0xC0 + i / 64, 0x80 + i % 64]
  else if i > 0x10FFFF ∨ (0xD800 ≤ i ∧ i ≤ 0xDFFF) then [0xEF, 0xBF, 0xBD]
  else if i ≤ 0xFFFF then [0xE0 + i / 4096, 0x80 + (i / 64) % 64, 0x80 + i % 64]
  else [0xF0 + i / 262144, 0x80 + (i / 4096) % 64, 0x80 + (i / 64) % 64, 0x80 + i % 64]

/-- The iteration `for i, c := range s` over a string: the pairs (index of the first
byte, rune) in order.  `i` is the index of the head of the list and `skip` the number
of bytes still belonging to the rune decoded last. -/
def rangeString : Nat → Nat → GoString → List (Nat × Int)
  | _, _, [] => []
  | i, 0, b :: rest =>
    (i, (DecodeRuneInString (b :: rest)).1) ::
      rangeString (i + 1) ((DecodeRuneInString (b :: rest)).2 - 1) rest
  | i, k + 1, _ :: rest => rangeString (i + 1) k rest

/-- Function `utf8.RuneCountInString`: the number of runes of `s`, an invalid byte
counting as one rune. -/
def RuneCountInString (s : GoString) : Nat := (rangeString 0 0 s).length

/-! ## `strings` and `unicode` -/

/-- The first loop of `strings.Map`: the first position where the output differs from
the input, as (index, mapped rune, width of the input rune), or `none` when the loop
runs to its end. -/
def mapFirst (mapping : Int → Int) (s : GoString) : List (Nat × Int) → Option (Nat × Int × Int)
  | [] => none
  | (i, c) :: rest =>
    let r := mapping c
    if r = c ∧ c ≠ RuneError then mapFirst mapping s rest
    else if c = RuneError then
      let d := DecodeRuneInString (s.drop i)
      if d.2 ≠ 1 ∧ r = d.1 then mapFirst mapping s rest
      else some (i, r, (d.2 : Int))
    else some (i, r, RuneLen c)

/-- The second loop of `strings.Map`: every rune of the rest is mapped and written,
a negative result being dropped. -/
def mapRest (mapping : Int → Int) : List (Nat × Int) → GoString
  | [] => []
  | (_, c) :: rest =>
    let r := mapping c
    (if r ≥ 0 then (if r < 0x80 then [r.toNat % 256] else AppendRune r) else [])
      ++ mapRest mapping rest

/-- Function `strings.Map`. -/
def stringsMap (mapping : Int → Int) (s : GoString) : GoString :=
  match mapFirst mapping s (rangeString 0 0 s) with
  | none => s
  | some (i, r, width) =>
    s.take i ++ (if r ≥ 0 then AppendRune r else [])
      ++ mapRest mapping (rangeString 0 0 (s.drop (i + width).toNat))

/-- Function `unicode.ToLower`.  ASCII is handled in the function itself; for every
other rune the result is `unicode.To(unicode.LowerCase, r)`, a lookup in the case
tables of the Unicode database, which are the parameter `caseTable`. -/
def unicodeToLower (caseTable : Int → Int) (r : Int) : Int :=
  if r ≤ 0x7F then
    if 65 ≤ r ∧ r ≤ 90 then r + 32 else r
  else caseTable r

/-- Function `strings.ToLower`. -/
def stringsToLower (caseTable : Int → Int) (s : GoString) : GoString :=
  let isASCII := s.all (fun c => decide (c < 0x80))
  let hasUpper := s.any (fun c => decide (65 ≤ c ∧ c ≤ 90))
  if isASCII then
    if !hasUpper then s
    else s.map (fun c => if 65 ≤ c ∧ c ≤ 90 then c + 32 else c)
  else stringsMap (unicodeToLower caseTable) s

/-- Function `strings.Split(s, sep)` for a separator of one byte: the substrings
between the occurrences of `sep`; never the empty list. -/
def stringsSplit (s : GoString) (sep : Nat) : List GoString :=
  match s with
  | [] => [[]]
  | b :: rest =>
    if b = sep then [] :: stringsSplit rest sep
    else
      match stringsSplit rest sep with
      | [] => [[b]]
      | t :: ts => (b :: t) :: ts

/-- Function `strings.Join(elems, sep)`. -/
def stringsJoin (elems : List GoString) (sep : GoString) : GoString :=
  match elems with
  | [] => []
  | [a] => a
  | a :: b :: rest => a ++ sep ++ stringsJoin (b :: rest) sep

/-! ## `filterProfanity` -/

/-- The local `profaneWords` of `filterProfanity`. -/
def profaneWords : List GoString :=
  [ascii "kerfuffle", ascii "sharbert", ascii "fornax"]

/-- The inner loop `for _, profaneWord := range profaneWords` at index `idx`: `word`
is the loop variable of the outer loop, `splitStrings` the slice being rewritten. -/
def filterInner (caseTable : Int → Int) (idx : Nat) (word : GoString) :
    List GoString → List GoString → List GoString
  | [], splitStrings => splitStrings
  | profaneWord :: more, splitStrings =>
    filterInner caseTable idx word more
      (if stringsToLower caseTable word = profaneWord then splitStrings.set idx (ascii "****")
       else splitStrings)

/-- The outer loop `for idx, word := range splitStrings`: `n` iterations are left and
the next one is at index `idx`. -/
def filterOuter (caseTable : Int → Int) : Nat → Nat → List GoString → List GoString
  | 0, _, splitStrings => splitStrings
  | n + 1, idx, splitStrings =>
    filterOuter caseTable n (idx + 1)
      (filterInner caseTable idx (splitStrings.getD idx []) profaneWords splitStrings)

/-- Function `filterProfanity`. -/
def filterProfanity (caseTable : Int → Int) (s : GoString) : GoString :=
  let splitStrings := stringsSplit s 32
  stringsJoin (filterOuter caseTable splitStrings.length 0 splitStrings) [32]

/-- The token rule of the specification, written after its words and not after the
code: a token whose lowercased form exactly equals one of the denylisted words
"kerfuffle", "sharbert", "fornax" becomes the mask of four characters; every other
token is left as it was. -/
def specMaskToken (caseTable : Int → Int) (token : GoString) : GoString :=
  if stringsToLower caseTable token = ascii "kerfuffle"
      ∨ stringsToLower caseTable token = ascii "sharbert"
      ∨ stringsToLower caseTable token = ascii "fornax" then ascii "****"
  else token

/-- The filter of the specification: split on single spaces, apply the token rule to
every token, join with single spaces. -/
def specFilter (caseTable : Int → Int) (text : GoString) : GoString :=
  stringsJoin ((stringsSplit text 32).map (specMaskToken caseTable)) [32]

/-! ## The hit counter -/

/-- Type `apiConfig`.  The field is the value held by the `atomic.Int32`. -/
structure apiConfig where
  fileServerHits : Int
  deriving DecidableEq, Repr

/-- The value of the declaration `apiCfg := apiConfig{}` in `main`. -/
def apiConfig.zero : apiConfig := { fileServerHits := 0 }

/-- Conversion of an integer to `int32`: wrap-around in 32-bit twos-complement. -/
def wrapInt32 (x : Int) : Int := (x + 2147483648) % 4294967296 - 2147483648

/-- Method `(*atomic.Int32).Add`: the new value. -/
def atomicAdd (v delta : Int) : Int := wrapInt32 (v + delta)

/-- Method `(*atomic.Int32).Load`. -/
def atomicLoad (v : Int) : Int := v

/-- Method `(*atomic.Int32).Store`: the new value. -/
def atomicStore (_v val : Int) : Int := val

/-- Method `middlewareMetricsInc`: the effect on `cfg` of one request passing through
the middleware.  The wrapped handler `next` is the file server, which has no access
to `cfg`. -/
def middlewareMetricsInc (cfg : apiConfig) : apiConfig :=
  { fileServerHits := atomicAdd cfg.fileServerHits 1 }

/-- The page written by `handlerMetrics`: its content type and the number formatted by
`%d` into the fixed HTML text. -/
structure MetricsPage where
  contentType : String
  visits : Int
  deriving DecidableEq, Repr

/-- Method `handlerMetrics`. -/
def handlerMetrics (cfg : apiConfig) : MetricsPage :=
  { contentType := "text/html", visits := atomicLoad cfg.fileServerHits }

/-- Method `handlerResetMetrics`: the effect on `cfg`. -/
def handlerResetMetrics (cfg : apiConfig) : apiConfig :=
  { fileServerHits := atomicStore cfg.fileServerHits 0 }

/-- The two operations of the program that change the counter. -/
inductive CounterOp where
  | increment
  | reset
  deriving DecidableEq, Repr

/-- One operation applied to the configuration. -/
def CounterOp.apply : CounterOp → apiConfig → apiConfig
  | .increment, cfg => middlewareMetricsInc cfg
  | .reset, cfg => handlerResetMetrics cfg

/-- A finite sequence of operations applied in order. -/
def runOps : List CounterOp → apiConfig → apiConfig
  | [], cfg => cfg
  | op :: ops, cfg => runOps ops (op.apply cfg)

/-- The number of increments after the last reset of the sequence (after the start
when there is no reset). -/
def incrementsSinceReset : List CounterOp → Nat → Nat
  | [], k => k
  | .increment :: ops, k => incrementsSinceReset ops (k + 1)
  | .reset :: ops, _ => incrementsSinceReset ops 0

/-! ## The handler of `POST /api/validate_chirp` -/

/-- The values passed to `json.Marshal`: the local struct types `errorResponse` of
`respondWithError` and `Response` of the handler. -/
inductive Payload where
  | errorResponse (Error : GoString)
  | Response (CleanedBody : GoString)
  deriving DecidableEq, Repr

/-- A JSON object: its fields, each a key and a string value. -/
abbrev JsonObject := List (String × GoString)

/-- Function `json.Marshal` on the two struct types: one field, named by the struct
tag.  It returns no error on them. -/
def jsonMarshal : Payload → Except String JsonObject
  | .errorResponse e => .ok [("error", e)]
  | .Response c => .ok [("cleaned_body", c)]

/-- What a handler has done to its `http.ResponseWriter`: the headers set, the status
given to `WriteHeader`, and the document written. -/
structure ResponseWriter where
  header : List (String × String)
  statusCode : Option Nat
  written : Option JsonObject
  deriving DecidableEq, Repr

/-- A response writer nothing has been written to. -/
def ResponseWriter.fresh : ResponseWriter :=
  { header := [], statusCode := none, written := none }

/-- Method `Header().Set`. -/
def headerSet (h : List (String × String)) (key value : String) : List (String × String) :=
  (key, value) :: h.filter (fun kv => kv.1 ≠ key)

/-- Function `respondWithError`. -/
def respondWithError (w : ResponseWriter) (code : Nat) (msg : GoString) : ResponseWriter :=
  match jsonMarshal (.errorResponse msg) with
  | .error _ => { w with statusCode := some 500 }
  | .ok dat =>
    { header := headerSet w.header "Content-Type" "application/json",
      statusCode := some code,
      written := some dat }

/-- Function `respondWithJSON`. -/
def respondWithJSON (w : ResponseWriter) (code : Nat) (payload : Payload) : ResponseWriter :=
  match jsonMarshal payload with
  | .error _ => { w with statusCode := some 500 }
  | .ok dat =>
    { header := headerSet w.header "Content-Type" "application/json",
      statusCode := some code,
      written := some dat }

/-- The handler registered for `POST /api/validate_chirp`.  `decoded` is the outcome of
`decoder.Decode(&params)`: an error, or the field `params.Body`. -/
def handlerValidateChirp (caseTable : Int → Int) (w : ResponseWriter)
    (decoded : Except String GoString) : ResponseWriter :=
  match decoded with
  | .error _ => respondWithError w 500 (ascii "Something went wrong")
  | .ok Body =>
    if Body.length > 140 then respondWithError w 400 (ascii "Chirp is too long")
    else respondWithJSON w 200 (.Response (filterProfanity caseTable Body))

/-- The `cleaned_body` of a response, when it has one. -/
def cleanedBody (w : ResponseWriter) : Option GoString :=
  match w.written with
  | some [("cleaned_body", c)] => some c
  | _ => none

/-! ## Concrete inputs -/

/-- A text of 71 letters U+00E9, each encoded in the two bytes `C3 A9`: 71 characters,
142 bytes. -/
def seventyOneAccents : GoString := (List.replicate 71 [0xC3, 0xA9]).flatten

/-- A text of 141 letters `a`. -/
def manyLetters : GoString := List.replicate 141 97

/-- The text of the example of the specification. -/
def opinion : GoString := ascii "This is a kerfuffle opinion I need to share with the world"

/-- A case table that changes no rune.  It stands for the Unicode tables where a
theorem is applied to a concrete input: those inputs are ASCII, or are rejected by the
length check before the filter runs, so the table is not consulted on them. -/
def noCase : Int → Int := fun r => r

/-! ## Lemmas on `strings.Split` and `strings.Join` -/

/-- The mask is four bytes `*`. -/
theorem ascii_mask : ascii "****" = [42, 42, 42, 42] := by decide

/-- The result of `strings.Split` has at least one element. -/
theorem stringsSplit_ne_nil (s : GoString) (sep : Nat) : stringsSplit s sep ≠ [] := by
  cases s with
  | nil => simp [stringsSplit]
  | cons b rest =>
    unfold stringsSplit
    split
    · simp
    · split <;> simp

/-- Joining a first element with a list that is not empty puts the separator between them. -/
theorem stringsJoin_cons_of_ne_nil (a : GoString) (ts : List GoString) (sep : GoString)
    (h : ts ≠ []) : stringsJoin (a :: ts) sep = a ++ sep ++ stringsJoin ts sep := by
  cases ts with
  | nil => exact absurd rfl h
  | cons b rest => rfl

/-- Joining the pieces of a split with the separator gives the string back. -/
theorem stringsJoin_split (s : GoString) (sep : Nat) :
    stringsJoin (stringsSplit s sep) [sep] = s := by
  induction s with
  | nil => rfl
  | cons b rest ih =>
    unfold stringsSplit
    split
    · rename_i hb
      rw [stringsJoin_cons_of_ne_nil _ _ _ (stringsSplit_ne_nil rest sep), ih]
      simp [hb]
    · have hne := stringsSplit_ne_nil rest sep
      split
      · rename_i heq; exact absurd heq hne
      · rename_i t ts heq
        rw [heq] at ih
        cases ts with
        | nil =>
          simp only [stringsJoin] at ih ⊢
          rw [ih]
        | cons u us =>
          simp only [stringsJoin] at ih ⊢
          rw [← ih]; simp

/-- No piece of a split contains the separator. -/
theorem stringsSplit_no_sep (s : GoString) (sep : Nat) :
    ∀ t ∈ stringsSplit s sep, sep ∉ t := by
  induction s with
  | nil => simp [stringsSplit]
  | cons b rest ih =>
    unfold stringsSplit
    split
    · intro t ht
      rcases List.mem_cons.1 ht with h | h
      · subst h; simp
      · exact ih t h
    · rename_i hb
      split
      · intro t ht
        simp at ht; subst ht; simp; exact fun h => hb h.symm
      · rename_i t ts heq
        rw [heq] at ih
        intro u hu
        rcases List.mem_cons.1 hu with h | h
        · subst h
          have := ih t (List.mem_cons_self _ _)
          simp; exact ⟨fun h => hb h.symm, this⟩
        · exact ih u (List.mem_cons_of_mem _ h)

/-- A string that starts with a piece free of the separator, followed by the separator, splits into that piece and the split of the rest. -/
theorem stringsSplit_append_sep (t : GoString) (sep : Nat) (rest : GoString)
    (ht : sep ∉ t) : stringsSplit (t ++ sep :: rest) sep = t :: stringsSplit rest sep := by
  induction t with
  | nil => simp [stringsSplit]
  | cons b t ih =>
    have hb : b ≠ sep := fun h => ht (by simp [h])
    have ht2 : sep ∉ t := fun h => ht (List.mem_cons_of_mem _ h)
    simp only [List.cons_append]
    rw [stringsSplit]
    simp only [hb, if_false]
    rw [ih ht2]

/-- A string free of the separator splits into itself. -/
theorem stringsSplit_of_no_sep (t : GoString) (sep : Nat) (ht : sep ∉ t) :
    stringsSplit t sep = [t] := by
  induction t with
  | nil => rfl
  | cons b t ih =>
    have hb : b ≠ sep := fun h => ht (by simp [h])
    have ht2 : sep ∉ t := fun h => ht (List.mem_cons_of_mem _ h)
    rw [stringsSplit]
    simp only [hb, if_false]
    rw [ih ht2]

/-- Splitting the join of pieces that are free of the separator gives the pieces back. -/
theorem stringsSplit_join (ts : List GoString) (sep : Nat) (hne : ts ≠ [])
    (h : ∀ t ∈ ts, sep ∉ t) : stringsSplit (stringsJoin ts [sep]) sep = ts := by
  induction ts with
  | nil => exact absurd rfl hne
  | cons a rest ih =>
    cases rest with
    | nil =>
      simp only [stringsJoin]
      exact stringsSplit_of_no_sep a sep (h a (List.mem_cons_self _ _))
    | cons b more =>
      simp only [stringsJoin]
      have := ih (by simp) (fun t ht => h t (List.mem_cons_of_mem _ ht))
      rw [List.append_assoc, List.singleton_append,
        stringsSplit_append_sep a sep _ (h a (List.mem_cons_self _ _)), this]

/-! ## The loops of `filterProfanity` -/

/-- The inner loop at the index of `t`: the element is replaced by the mask when the lowercased `word` is one of the words looped over, and nothing else changes. -/
theorem filterInner_eq (caseTable : Int → Int) (word : GoString) (pws : List GoString) :
    ∀ (pre : List GoString) (t : GoString) (post : List GoString),
      filterInner caseTable pre.length word pws (pre ++ t :: post)
        = pre ++ (if stringsToLower caseTable word ∈ pws then ascii "****" else t) :: post := by
  induction pws with
  | nil => intro pre t post; simp [filterInner]
  | cons pw more ih =>
    intro pre t post
    rw [filterInner]
    by_cases h : stringsToLower caseTable word = pw
    · rw [if_pos h, List.set_append_right _ _ (Nat.le_refl _)]
      simp only [Nat.sub_self, List.set_cons_zero]
      rw [ih]
      simp [h]
    · rw [if_neg h, ih]
      have : (stringsToLower caseTable word ∈ pw :: more) ↔ stringsToLower caseTable word ∈ more := by
        simp [h]
      simp only [this]

/-- Membership in `profaneWords`, word by word. -/
theorem mem_profaneWords (w : GoString) :
    w ∈ profaneWords ↔ (w = ascii "kerfuffle" ∨ w = ascii "sharbert" ∨ w = ascii "fornax") := by
  simp [profaneWords]

/-- The outer loop started at the end of `pre`: the elements not yet visited are rewritten by the token rule. -/
theorem filterOuter_eq (caseTable : Int → Int) (post : List GoString) :
    ∀ (pre : List GoString),
      filterOuter caseTable post.length pre.length (pre ++ post)
        = pre ++ post.map (specMaskToken caseTable) := by
  induction post with
  | nil => intro pre; simp [filterOuter]
  | cons t post ih =>
    intro pre
    simp only [List.length_cons]
    rw [filterOuter]
    have hget : (pre ++ t :: post).getD pre.length [] = t := by
      rw [List.getD_eq_getElem?_getD, List.getElem?_append_right (Nat.le_refl _)]
      simp
    rw [hget, filterInner_eq]
    have hm : (if stringsToLower caseTable t ∈ profaneWords then ascii "****" else t)
        = specMaskToken caseTable t := by
      unfold specMaskToken
      simp only [mem_profaneWords]
    rw [hm]
    have := ih (pre ++ [specMaskToken caseTable t])
    simp only [List.length_append, List.length_singleton, List.append_assoc,
      List.singleton_append] at this
    rw [this]
    simp

/-- The code of `filterProfanity` computes the filter of the specification. -/
theorem filterProfanity_eq (caseTable : Int → Int) (s : GoString) :
    filterProfanity caseTable s
      = stringsJoin ((stringsSplit s 32).map (specMaskToken caseTable)) [32] := by
  unfold filterProfanity
  have := filterOuter_eq caseTable (stringsSplit s 32) []
  simp only [List.length_nil, List.nil_append] at this
  simp only [this]

/-! ## Lemmas on UTF-8 and on `strings.ToLower` -/

/-- The values of the table `first`, by range of the byte. -/
theorem first_cases (b : Nat) :
    (b < 0x80 ∧ first b = 0xF0) ∨ first b = 0xF1
    ∨ (b < 0xE0 ∧ first b = 0x02)
    ∨ (b = 0xE0 ∧ first b = 0x13)
    ∨ (0xE0 ≤ b ∧ b < 0xF0 ∧ b ≠ 0xED ∧ first b = 0x03)
    ∨ (b = 0xED ∧ first b = 0x23)
    ∨ (b = 0xF0 ∧ first b = 0x34)
    ∨ (0xF0 < b ∧ b < 0xF4 ∧ first b = 0x04)
    ∨ (b = 0xF4 ∧ first b = 0x44) := by
  unfold first
  repeat' split
  all_goals omega

/-- A decoded rune is a valid rune: at most `MaxRune` and no surrogate. -/
theorem decode_valid (s : GoString) :
    0 ≤ (DecodeRuneInString s).1 ∧ (DecodeRuneInString s).1 ≤ 0x10FFFF
      ∧ ((DecodeRuneInString s).1 < 0xD800 ∨ 0xDFFF < (DecodeRuneInString s).1) := by
  cases s with
  | nil => simp [DecodeRuneInString, RuneError]
  | cons s0 t =>
    rcases first_cases s0 with ⟨hb, hf⟩ | hf | ⟨hb, hf⟩ | ⟨hb, hf⟩ | ⟨hb1, hb2, hb3, hf⟩
        | ⟨hb, hf⟩ | ⟨hb, hf⟩ | ⟨hb1, hb2, hf⟩ | ⟨hb, hf⟩
    all_goals
      simp only [DecodeRuneInString, hf, acceptRanges, RuneError]
      norm_num
      repeat' split
      all_goals omega

/-- Decoding a string that is not empty consumes at least one byte. -/
theorem decode_width_pos (b : Nat) (t : GoString) : 1 ≤ (DecodeRuneInString (b :: t)).2 := by
  rcases first_cases b with ⟨hb, hf⟩ | hf | ⟨hb, hf⟩ | ⟨hb, hf⟩ | ⟨hb1, hb2, hb3, hf⟩
      | ⟨hb, hf⟩ | ⟨hb, hf⟩ | ⟨hb1, hb2, hf⟩ | ⟨hb, hf⟩
  all_goals
    simp only [DecodeRuneInString, hf, acceptRanges, RuneError]
    norm_num
    repeat' split
    all_goals omega

/-- The length of the encoding of a valid rune is positive. -/
theorem runeLen_pos_of_valid (c : Int) (h0 : 0 ≤ c) (h1 : c ≤ 0x10FFFF)
    (h2 : c < 0xD800 ∨ 0xDFFF < c) : 1 ≤ RuneLen c := by
  unfold RuneLen MaxRune
  repeat' split
  all_goals omega

/-- An encoding made of ASCII bytes only is a single byte. -/
theorem appendRune_ascii (r : Int) (h : ∀ b ∈ AppendRune r, b < 0x80) :
    (AppendRune r).length ≤ 1 := by
  unfold AppendRune at h ⊢
  simp only [] at h ⊢
  split
  · simp
  · exfalso
    rename_i h1
    rw [if_neg h1] at h
    split at h
    · have := h _ (List.mem_cons_self _ _); omega
    · split at h
      · have := h _ (List.mem_cons_self _ _); omega
      · split at h
        · have := h _ (List.mem_cons_self _ _); omega
        · have := h _ (List.mem_cons_self _ _); omega

/-- A string has at most as many runes as bytes. -/
theorem rangeString_length (s : GoString) :
    ∀ i k, (rangeString i k s).length ≤ s.length := by
  induction s with
  | nil => intro i k; simp [rangeString]
  | cons b rest ih =>
    intro i k
    cases k with
    | zero =>
      rw [rangeString]
      have := ih (i + 1) ((DecodeRuneInString (b :: rest)).2 - 1)
      simp only [List.length_cons]; omega
    | succ k =>
      rw [rangeString]
      have := ih (i + 1) k
      simp only [List.length_cons]; omega

/-- The indices of a `range` loop lie inside the string and its runes are valid. -/
theorem rangeString_mem (s : GoString) :
    ∀ i k, ∀ p ∈ rangeString i k s,
      i ≤ p.1 ∧ p.1 < i + s.length ∧ 1 ≤ RuneLen p.2 := by
  induction s with
  | nil => intro i k p hp; simp [rangeString] at hp
  | cons b rest ih =>
    intro i k p hp
    cases k with
    | zero =>
      rw [rangeString] at hp
      rcases List.mem_cons.1 hp with h | h
      · subst h
        have hv := decode_valid (b :: rest)
        refine ⟨Nat.le_refl _, by simp, runeLen_pos_of_valid _ hv.1 hv.2.1 hv.2.2⟩
      · have := ih _ _ p h
        simp only [List.length_cons]
        exact ⟨by omega, by omega, this.2.2⟩
    | succ k =>
      rw [rangeString] at hp
      have := ih _ _ p hp
      simp only [List.length_cons]
      exact ⟨by omega, by omega, this.2.2⟩

/-- When the second loop of `strings.Map` writes ASCII bytes only, it writes at most one byte for each rune. -/
theorem mapRest_ascii (mapping : Int → Int) (l : List (Nat × Int)) :
    (∀ b ∈ mapRest mapping l, b < 0x80) → (mapRest mapping l).length ≤ l.length := by
  induction l with
  | nil => intro _; simp [mapRest]
  | cons p rest ih =>
    obtain ⟨i, c⟩ := p
    intro h
    rw [mapRest] at h ⊢
    have h1 := ih (fun b hb => h b (List.mem_append_right _ hb))
    have h2 : (if mapping c ≥ 0 then (if mapping c < 0x80 then [(mapping c).toNat % 256]
        else AppendRune (mapping c)) else []).length ≤ 1 := by
      split
      · split
        · simp
        · rename_i h3 h4
          apply appendRune_ascii
          intro b hb
          apply h b
          apply List.mem_append_left
          rw [if_pos h3, if_neg h4]
          exact hb
      · simp
    simp only [List.length_append, List.length_cons]
    omega

/-- The position found by the first loop of `strings.Map` lies inside the string and the width found there is positive. -/
theorem mapFirst_some (mapping : Int → Int) (s : GoString) (l : List (Nat × Int))
    (hl : ∀ p ∈ l, p.1 < s.length ∧ 1 ≤ RuneLen p.2) (i : Nat) (r w : Int)
    (h : mapFirst mapping s l = some (i, r, w)) : i < s.length ∧ 1 ≤ w := by
  induction l with
  | nil => simp [mapFirst] at h
  | cons p rest ih =>
    obtain ⟨j, c⟩ := p
    have hp := hl (j, c) (List.mem_cons_self _ _)
    have hrest : ∀ p ∈ rest, p.1 < s.length ∧ 1 ≤ RuneLen p.2 :=
      fun p hp => hl p (List.mem_cons_of_mem _ hp)
    rw [mapFirst] at h
    simp only [] at h
    split at h
    · exact ih hrest h
    · split at h
      · split at h
        · exact ih hrest h
        · simp only [Option.some.injEq, Prod.mk.injEq] at h
          obtain ⟨h1, _, h3⟩ := h
          subst h1
          refine ⟨hp.1, ?_⟩
          rw [← h3]
          have hd : s.drop j ≠ [] := by
            intro hnil
            have := List.drop_eq_nil_iff.1 hnil
            have := hp.1
            omega
          obtain ⟨b, t, hbt⟩ := List.exists_cons_of_ne_nil hd
          rw [hbt]
          have := decode_width_pos b t
          omega
      · simp only [Option.some.injEq, Prod.mk.injEq] at h
        obtain ⟨h1, _, h3⟩ := h
        subst h1
        exact ⟨hp.1, h3 ▸ hp.2⟩

/-- A result of `strings.Map` made of ASCII bytes only is not longer than the input. -/
theorem stringsMap_ascii (mapping : Int → Int) (s : GoString)
    (h : ∀ b ∈ stringsMap mapping s, b < 0x80) : (stringsMap mapping s).length ≤ s.length := by
  unfold stringsMap at h ⊢
  split at h
  · exact Nat.le_refl _
  · rename_i i r w heq
    have hl : ∀ p ∈ rangeString 0 0 s, p.1 < s.length ∧ 1 ≤ RuneLen p.2 := by
      intro p hp
      have := rangeString_mem s 0 0 p hp
      exact ⟨by omega, this.2.2⟩
    obtain ⟨hi, hw⟩ := mapFirst_some mapping s _ hl i r w heq
    have h1 : (if r ≥ 0 then AppendRune r else []).length ≤ 1 := by
      split
      · rename_i hr
        apply appendRune_ascii
        intro b hb
        apply h b
        apply List.mem_append_left
        apply List.mem_append_right
        rw [if_pos hr]; exact hb
      · simp
    have h2 := mapRest_ascii mapping (rangeString 0 0 (s.drop (i + w).toNat))
      (fun b hb => h b (List.mem_append_right _ hb))
    have h3 := rangeString_length (s.drop (i + w).toNat) 0 0
    simp only [List.length_append, List.length_take, List.length_drop] at h3 ⊢
    omega

/-- A result of `strings.ToLower` made of ASCII bytes only is not longer than the input. -/
theorem stringsToLower_ascii (caseTable : Int → Int) (s : GoString)
    (h : ∀ b ∈ stringsToLower caseTable s, b < 0x80) :
    (stringsToLower caseTable s).length ≤ s.length := by
  unfold stringsToLower at h ⊢
  simp only [] at h ⊢
  split
  · split
    · exact Nat.le_refl _
    · simp
  · rename_i h1
    rw [if_neg h1] at h
    exact stringsMap_ascii _ s h

/-- A token that lowercases to a denylisted word has at least four bytes. -/
theorem length_of_toLower_profane (caseTable : Int → Int) (t : GoString)
    (h : stringsToLower caseTable t ∈ profaneWords) : 4 ≤ t.length := by
  have hlen : 6 ≤ (stringsToLower caseTable t).length ∧
      ∀ b ∈ stringsToLower caseTable t, b < 0x80 := by
    have : ∀ w ∈ profaneWords, 6 ≤ w.length ∧ ∀ b ∈ w, b < 0x80 := by decide
    exact this _ h
  have := stringsToLower_ascii caseTable t hlen.2
  omega

/-! ## Lemmas on `filterProfanity` -/

/-- On an ASCII string `strings.ToLower` does not consult the case table. -/
theorem stringsToLower_of_isASCII (caseTable : Int → Int) (s : GoString)
    (h : s.all (fun c => decide (c < 0x80)) = true) :
    stringsToLower caseTable s = stringsToLower (noCase) s := by
  unfold stringsToLower
  simp only [h, if_true]

/-- On an ASCII token the token rule does not consult the case table. -/
theorem specMaskToken_of_isASCII (caseTable : Int → Int) (t : GoString)
    (h : t.all (fun c => decide (c < 0x80)) = true) :
    specMaskToken caseTable t = specMaskToken (noCase) t := by
  unfold specMaskToken
  rw [stringsToLower_of_isASCII caseTable t h]

/-- The token rule applied twice is the token rule applied once. -/
theorem specMaskToken_idem (caseTable : Int → Int) (t : GoString) :
    specMaskToken caseTable (specMaskToken caseTable t) = specMaskToken caseTable t := by
  by_cases h : stringsToLower caseTable t = ascii "kerfuffle"
      ∨ stringsToLower caseTable t = ascii "sharbert"
      ∨ stringsToLower caseTable t = ascii "fornax"
  · have h1 : specMaskToken caseTable t = ascii "****" := by
      unfold specMaskToken; rw [if_pos h]
    rw [h1]
    unfold specMaskToken
    split <;> rfl
  · have h1 : specMaskToken caseTable t = t := by
      unfold specMaskToken; rw [if_neg h]
    rw [h1, h1]

/-- The token rule puts no space into a token. -/
theorem specMaskToken_no_space (caseTable : Int → Int) (t : GoString) (h : 32 ∉ t) :
    32 ∉ specMaskToken caseTable t := by
  unfold specMaskToken
  split
  · decide
  · exact h

/-- The token rule never lengthens a token. -/
theorem specMaskToken_length_le (caseTable : Int → Int) (t : GoString) :
    (specMaskToken caseTable t).length ≤ t.length := by
  unfold specMaskToken
  split
  · rename_i h
    have := length_of_toLower_profane caseTable t ((mem_profaneWords _).2 h)
    simpa [ascii_mask] using this
  · exact Nat.le_refl _

/-- Joining shortened pieces gives a string that is not longer. -/
theorem stringsJoin_length_le (f : GoString → GoString) (sep : GoString)
    (hf : ∀ t, (f t).length ≤ t.length) (ts : List GoString) :
    (stringsJoin (ts.map f) sep).length ≤ (stringsJoin ts sep).length := by
  induction ts with
  | nil => simp [stringsJoin]
  | cons a rest ih =>
    cases rest with
    | nil => simpa [stringsJoin] using hf a
    | cons b more =>
      simp only [List.map_cons, stringsJoin, List.length_append] at ih ⊢
      have := hf a
      omega

/-- The tokens of the filtered string are the rewritten tokens of the input. -/
theorem split_filterProfanity (caseTable : Int → Int) (s : GoString) :
    stringsSplit (filterProfanity caseTable s) 32
      = (stringsSplit s 32).map (specMaskToken caseTable) := by
  rw [filterProfanity_eq]
  apply stringsSplit_join
  · simpa using stringsSplit_ne_nil s 32
  · intro t ht
    obtain ⟨u, hu, rfl⟩ := List.mem_map.1 ht
    exact specMaskToken_no_space caseTable u (stringsSplit_no_sep s 32 u hu)

/-- Filtering twice is filtering once. -/
theorem filterProfanity_idem (caseTable : Int → Int) (s : GoString) :
    filterProfanity caseTable (filterProfanity caseTable s) = filterProfanity caseTable s := by
  rw [filterProfanity_eq caseTable (filterProfanity caseTable s), split_filterProfanity,
    filterProfanity_eq caseTable s, List.map_map]
  congr 1
  apply List.map_congr_left
  intro t _
  exact specMaskToken_idem caseTable t

/-- The filtered string is not longer than the input. -/
theorem filterProfanity_length_le (caseTable : Int → Int) (s : GoString) :
    (filterProfanity caseTable s).length ≤ s.length := by
  have h := stringsJoin_length_le (specMaskToken caseTable) [32]
    (specMaskToken_length_le caseTable) (stringsSplit s 32)
  rw [stringsJoin_split] at h
  rw [filterProfanity_eq]
  exact h

/-- A string without a denylisted token is unchanged. -/
theorem filterProfanity_of_clean (caseTable : Int → Int) (s : GoString)
    (h : ∀ t ∈ stringsSplit s 32, stringsToLower caseTable t ∉ profaneWords) :
    filterProfanity caseTable s = s := by
  rw [filterProfanity_eq]
  have : (stringsSplit s 32).map (specMaskToken caseTable) = stringsSplit s 32 := by
    conv_rhs => rw [← List.map_id (stringsSplit s 32)]
    apply List.map_congr_left
    intro t ht
    have := h t ht
    rw [mem_profaneWords] at this
    simp [specMaskToken, this]
  rw [this, stringsJoin_split]

/-- The filter on a single ASCII token. -/
theorem filterProfanity_ascii_token (caseTable : Int → Int) (t : GoString)
    (h1 : t.all (fun c => decide (c < 0x80)) = true) (h2 : 32 ∉ t) :
    filterProfanity caseTable t = specMaskToken (noCase) t := by
  rw [filterProfanity_eq, stringsSplit_of_no_sep t 32 h2]
  simp only [List.map_cons, List.map_nil, stringsJoin]
  exact specMaskToken_of_isASCII caseTable t h1

/-! ## Lemmas on the counter -/

/-- Wrapping before adding one changes nothing. -/
theorem wrapInt32_succ (x : Int) : wrapInt32 (wrapInt32 x + 1) = wrapInt32 (x + 1) := by
  unfold wrapInt32; omega

/-- A natural number below 2147483648 is an `int32` value. -/
theorem wrapInt32_of_lt (n : Nat) (h : n < 2147483648) : wrapInt32 (n : Int) = n := by
  unfold wrapInt32; omega

/-- The counter after `N` increments from zero is `N` wrapped to `int32`. -/
theorem iterate_inc_hits (N : Nat) :
    (middlewareMetricsInc^[N] apiConfig.zero).fileServerHits = wrapInt32 (N : Int) := by
  induction N with
  | zero => rfl
  | succ n ih =>
    rw [Function.iterate_succ_apply']
    simp only [middlewareMetricsInc, atomicAdd, ih]
    rw [wrapInt32_succ]
    push_cast
    rfl

/-- A sequence of `N` increments is the `N`-fold iteration of the middleware step. -/
theorem runOps_replicate_increment (N : Nat) (cfg : apiConfig) :
    runOps (List.replicate N CounterOp.increment) cfg = middlewareMetricsInc^[N] cfg := by
  induction N generalizing cfg with
  | zero => rfl
  | succ n ih =>
    rw [List.replicate_succ, runOps, ih, Function.iterate_succ_apply]
    rfl

/-- The counter after a sequence of operations is the wrapped number of increments since the last reset. -/
theorem runOps_hits (ops : List CounterOp) :
    ∀ (cfg : apiConfig) (k : Nat), cfg.fileServerHits = wrapInt32 (k : Int) →
      (runOps ops cfg).fileServerHits = wrapInt32 (incrementsSinceReset ops k : Nat) := by
  induction ops with
  | nil => intro cfg k h; simpa [runOps, incrementsSinceReset] using h
  | cons op ops ih =>
    intro cfg k h
    cases op with
    | increment =>
      rw [runOps, incrementsSinceReset]
      apply ih
      simp only [CounterOp.apply, middlewareMetricsInc, atomicAdd, h]
      rw [wrapInt32_succ]
      push_cast
      rfl
    | reset =>
      rw [runOps, incrementsSinceReset]
      apply ih
      rfl

/-- The page shows the value of the counter. -/
theorem visits_eq (cfg : apiConfig) : (handlerMetrics cfg).visits = cfg.fileServerHits := rfl

/-- A reset gives the zero configuration. -/
theorem reset_eq_zero (cfg : apiConfig) : handlerResetMetrics cfg = apiConfig.zero := rfl

/-! ## Lemmas on the handler -/

/-- The handler on a text of more than 140 bytes. -/
theorem handler_too_long (caseTable : Int → Int) (w : ResponseWriter) (body : GoString)
    (h : 140 < body.length) :
    handlerValidateChirp caseTable w (.ok body)
      = respondWithError w 400 (ascii "Chirp is too long") := by
  simp only [handlerValidateChirp]
  rw [if_pos h]

/-- The handler on a text of at most 140 bytes. -/
theorem handler_accepted (caseTable : Int → Int) (w : ResponseWriter) (body : GoString)
    (h : body.length ≤ 140) :
    handlerValidateChirp caseTable w (.ok body)
      = respondWithJSON w 200 (.Response (filterProfanity caseTable body)) := by
  simp only [handlerValidateChirp]
  rw [if_neg (by omega)]

/-! ## The claims -/

set_option maxRecDepth 100000

/-- Claim C1: `filterProfanity` is idempotent: filtering a filtered string changes
nothing. -/
theorem C1_filterProfanity_idempotent (caseTable : Int → Int) (s : GoString) :
    filterProfanity caseTable (filterProfanity caseTable s) = filterProfanity caseTable s :=
  filterProfanity_idem caseTable s

/-- Claim C2 as stated fails: a text of 71 characters, fewer than 141, that is 142 bytes
long is answered with status 400 and no `cleaned_body`. -/
theorem C2_counterexample :
    RuneCountInString seventyOneAccents < 141
    ∧ (handlerValidateChirp noCase ResponseWriter.fresh (.ok seventyOneAccents)).statusCode
        = some 400
    ∧ cleanedBody (handlerValidateChirp noCase ResponseWriter.fresh (.ok seventyOneAccents))
        = none := by
  decide

/-- Claim C2, amended: when the body parses to a text of at most 140 bytes, the handler
answers with status 200 and with the filtered text as `cleaned_body`, and the filtered
text has as many tokens (split on single spaces) as the input text. -/
theorem C2_validate_chirp_ok (caseTable : Int → Int) (w : ResponseWriter) (body : GoString)
    (h : body.length ≤ 140) :
    (handlerValidateChirp caseTable w (.ok body)).statusCode = some 200
    ∧ cleanedBody (handlerValidateChirp caseTable w (.ok body))
        = some (filterProfanity caseTable body)
    ∧ (stringsSplit (filterProfanity caseTable body) 32).length
        = (stringsSplit body 32).length := by
  rw [handler_accepted caseTable w body h]
  refine ⟨rfl, rfl, ?_⟩
  rw [split_filterProfanity, List.length_map]

/-- Witness of C2: the example of the specification, whose `cleaned_body` is
"This is a **** opinion I need to share with the world". -/
theorem C2_validate_chirp_ok_witness :
    opinion.length ≤ 140
    ∧ ((handlerValidateChirp noCase ResponseWriter.fresh (.ok opinion)).statusCode = some 200
      ∧ cleanedBody (handlerValidateChirp noCase ResponseWriter.fresh (.ok opinion))
          = some (filterProfanity noCase opinion)
      ∧ (stringsSplit (filterProfanity noCase opinion) 32).length
          = (stringsSplit opinion 32).length)
    ∧ filterProfanity noCase opinion
        = ascii "This is a **** opinion I need to share with the world" :=
  ⟨by decide, C2_validate_chirp_ok noCase ResponseWriter.fresh opinion (by decide), by decide⟩

/-- Claim C3: the tokens of `filterProfanity s` are the tokens of `s` with the token rule
of the specification applied to each, `filterProfanity s` is those tokens joined with
single spaces (it is the filter of the specification), and the two examples of the
specification hold. -/
theorem C3_filterProfanity_token_by_token (caseTable : Int → Int) (s : GoString) :
    stringsSplit (filterProfanity caseTable s) 32
        = (stringsSplit s 32).map (specMaskToken caseTable)
    ∧ filterProfanity caseTable s = specFilter caseTable s
    ∧ filterProfanity caseTable (ascii "KERFUFFLE") = ascii "****"
    ∧ filterProfanity caseTable (ascii "kerfufflez") = ascii "kerfufflez" := by
  refine ⟨split_filterProfanity caseTable s, filterProfanity_eq caseTable s, ?_, ?_⟩
  · rw [filterProfanity_ascii_token caseTable _ (by decide) (by decide)]
    decide
  · rw [filterProfanity_ascii_token caseTable _ (by decide) (by decide)]
    decide

/-- Claim C4 as stated fails: 2147483648 increments of the zero counter leave a counter
that reads -2147483648. -/
theorem C4_counterexample :
    (handlerMetrics (middlewareMetricsInc^[2147483648] apiConfig.zero)).visits = -2147483648
    ∧ (handlerMetrics (middlewareMetricsInc^[2147483648] apiConfig.zero)).visits
        ≠ ((2147483648 : Nat) : Int) := by
  have h : (handlerMetrics (middlewareMetricsInc^[2147483648] apiConfig.zero)).visits
      = -2147483648 := by
    rw [visits_eq, iterate_inc_hits]
    unfold wrapInt32
    omega
  refine ⟨h, ?_⟩
  rw [h]
  omega

/-- Claim C4, amended: for every `N` below 2147483648, `N` increments of the zero
counter, or of any counter after a reset, leave a counter that reads `N`; the counter
reads 0 after a reset whatever its value was. -/
theorem C4_counter_reads_N (cfg : apiConfig) (N : Nat) (h : N < 2147483648) :
    (handlerMetrics (middlewareMetricsInc^[N] apiConfig.zero)).visits = N
    ∧ (handlerMetrics (middlewareMetricsInc^[N] (handlerResetMetrics cfg))).visits = N
    ∧ (handlerMetrics (handlerResetMetrics cfg)).visits = 0 := by
  refine ⟨?_, ?_, rfl⟩
  · rw [visits_eq, iterate_inc_hits, wrapInt32_of_lt N h]
  · rw [visits_eq, reset_eq_zero, iterate_inc_hits, wrapInt32_of_lt N h]

/-- Witness of C4: three increments, from zero and after the reset of a counter that
held 41. -/
theorem C4_counter_reads_N_witness :
    (3 : Nat) < 2147483648
    ∧ (handlerMetrics (middlewareMetricsInc^[3] apiConfig.zero)).visits = (3 : Nat)
    ∧ (handlerMetrics (middlewareMetricsInc^[3] (handlerResetMetrics ⟨41⟩))).visits = (3 : Nat)
    ∧ (handlerMetrics (handlerResetMetrics ⟨41⟩)).visits = 0 :=
  ⟨by decide, C4_counter_reads_N ⟨41⟩ 3 (by decide)⟩

/-- Claim C5 as stated fails: after 2147483648 increments of the zero counter the value
read is negative. -/
theorem C5_counterexample :
    (handlerMetrics (runOps (List.replicate 2147483648 CounterOp.increment)
      apiConfig.zero)).visits < 0 := by
  rw [visits_eq, runOps_replicate_increment, iterate_inc_hits]
  unfold wrapInt32
  omega

/-- Claim C5, amended: after any finite sequence of increments and resets applied to the
zero counter in which fewer than 2147483648 increments follow the last reset, the value
read is not negative: it is the number of those increments. -/
theorem C5_counter_nonneg (ops : List CounterOp)
    (h : incrementsSinceReset ops 0 < 2147483648) :
    0 ≤ (handlerMetrics (runOps ops apiConfig.zero)).visits
    ∧ (handlerMetrics (runOps ops apiConfig.zero)).visits = incrementsSinceReset ops 0 := by
  have h1 : (handlerMetrics (runOps ops apiConfig.zero)).visits
      = incrementsSinceReset ops 0 := by
    rw [visits_eq, runOps_hits ops apiConfig.zero 0 rfl, wrapInt32_of_lt _ h]
  exact ⟨by rw [h1]; exact Int.natCast_nonneg _, h1⟩

/-- Witness of C5: two increments, a reset, one increment. -/
theorem C5_counter_nonneg_witness :
    incrementsSinceReset [.increment, .increment, .reset, .increment] 0 < 2147483648
    ∧ 0 ≤ (handlerMetrics (runOps [.increment, .increment, .reset, .increment]
        apiConfig.zero)).visits
    ∧ (handlerMetrics (runOps [.increment, .increment, .reset, .increment]
        apiConfig.zero)).visits
        = incrementsSinceReset [.increment, .increment, .reset, .increment] 0 :=
  ⟨by decide, C5_counter_nonneg _ (by decide)⟩

/-- Claim C6: when the body parses to a text of more than 140 characters (or of more than
140 bytes), the handler answers with status 400 and the JSON object
`{"error":"Chirp is too long"}`, and no `cleaned_body`. -/
theorem C6_chirp_too_long (caseTable : Int → Int) (w : ResponseWriter) (body : GoString)
    (h : 140 < RuneCountInString body ∨ 140 < body.length) :
    handlerValidateChirp caseTable w (.ok body)
        = respondWithError w 400 (ascii "Chirp is too long")
    ∧ (handlerValidateChirp caseTable w (.ok body)).statusCode = some 400
    ∧ (handlerValidateChirp caseTable w (.ok body)).written
        = some [("error", ascii "Chirp is too long")]
    ∧ cleanedBody (handlerValidateChirp caseTable w (.ok body)) = none := by
  have hlen : 140 < body.length := by
    rcases h with h | h
    · have := rangeString_length body 0 0
      unfold RuneCountInString at h
      omega
    · exact h
  rw [handler_too_long caseTable w body hlen]
  exact ⟨rfl, rfl, rfl, rfl⟩

/-- Witness of C6: a text of 141 letters `a`. -/
theorem C6_chirp_too_long_witness :
    (140 < RuneCountInString manyLetters ∨ 140 < manyLetters.length)
    ∧ handlerValidateChirp noCase ResponseWriter.fresh (.ok manyLetters)
        = respondWithError ResponseWriter.fresh 400 (ascii "Chirp is too long")
    ∧ (handlerValidateChirp noCase ResponseWriter.fresh (.ok manyLetters)).statusCode
        = some 400
    ∧ (handlerValidateChirp noCase ResponseWriter.fresh (.ok manyLetters)).written
        = some [("error", ascii "Chirp is too long")]
    ∧ cleanedBody (handlerValidateChirp noCase ResponseWriter.fresh (.ok manyLetters))
        = none :=
  ⟨Or.inl (by decide),
    C6_chirp_too_long noCase ResponseWriter.fresh manyLetters (Or.inl (by decide))⟩

/-- Claim C7: a string none of whose tokens has a lowercased form equal to a denylisted
word is returned unchanged by `filterProfanity`, every space and every empty token
included; the empty string is returned unchanged. -/
theorem C7_clean_text_unchanged (caseTable : Int → Int) (s : GoString)
    (h : ∀ t ∈ stringsSplit s 32, stringsToLower caseTable t ∉ profaneWords) :
    filterProfanity caseTable s = s
    ∧ stringsSplit (filterProfanity caseTable s) 32 = stringsSplit s 32
    ∧ filterProfanity caseTable [] = [] := by
  have h1 := filterProfanity_of_clean caseTable s h
  refine ⟨h1, by rw [h1], filterProfanity_of_clean caseTable [] ?_⟩
  intro t ht
  have ht2 : t = [] := by simpa [stringsSplit] using ht
  subst ht2
  rw [stringsToLower_of_isASCII caseTable [] rfl]
  decide

/-- Witness of C7: a text with a leading space, two consecutive spaces, a trailing space
and a token that contains a denylisted word. -/
theorem C7_clean_text_unchanged_witness :
    (∀ t ∈ stringsSplit (ascii " kerfufflez  Opinion ") 32,
        stringsToLower noCase t ∉ profaneWords)
    ∧ filterProfanity noCase (ascii " kerfufflez  Opinion ") = ascii " kerfufflez  Opinion "
    ∧ stringsSplit (filterProfanity noCase (ascii " kerfufflez  Opinion ")) 32
        = stringsSplit (ascii " kerfufflez  Opinion ") 32
    ∧ filterProfanity noCase [] = [] :=
  ⟨by decide, C7_clean_text_unchanged noCase (ascii " kerfufflez  Opinion ") (by decide)⟩

/-- Claim C8: when decoding the body returns an error, the handler is the call
`respondWithError(w, 500, "Something went wrong")`: status 500, the JSON object
`{"error":"Something went wrong"}`, no `cleaned_body`; the result depends on neither a
length nor the filter. -/
theorem C8_decode_error (caseTable : Int → Int) (w : ResponseWriter) (err : String) :
    handlerValidateChirp caseTable w (.error err)
        = respondWithError w 500 (ascii "Something went wrong")
    ∧ (handlerValidateChirp caseTable w (.error err)).statusCode = some 500
    ∧ (handlerValidateChirp caseTable w (.error err)).written
        = some [("error", ascii "Something went wrong")]
    ∧ cleanedBody (handlerValidateChirp caseTable w (.error err)) = none :=
  ⟨rfl, rfl, rfl, rfl⟩

/-- Claim C10: `filterProfanity` never lengthens its input, so for a text the length check
accepts (at most 140 bytes) the `cleaned_body` returned has at most 140 bytes. -/
theorem C10_never_longer (caseTable : Int → Int) (w : ResponseWriter) (s : GoString) :
    (filterProfanity caseTable s).length ≤ s.length
    ∧ (s.length ≤ 140 →
        ∃ c, cleanedBody (handlerValidateChirp caseTable w (.ok s)) = some c
          ∧ c.length ≤ 140) := by
  have h1 := filterProfanity_length_le caseTable s
  refine ⟨h1, fun h => ⟨filterProfanity caseTable s, ?_, by omega⟩⟩
  rw [handler_accepted caseTable w s h]
  rfl

/-- Witness of C10: the example of the specification, 58 bytes filtered to 53. -/
theorem C10_never_longer_witness :
    opinion.length ≤ 140
    ∧ (filterProfanity noCase opinion).length ≤ opinion.length
    ∧ (opinion.length ≤ 140 →
        ∃ c, cleanedBody (handlerValidateChirp noCase ResponseWriter.fresh (.ok opinion))
            = some c ∧ c.length ≤ 140) :=
  ⟨by decide, C10_never_longer noCase ResponseWriter.fresh opinion⟩

end Chirpy
